import Mathlib

/-!
Verification development for the comment-tree acquisition and adaptive-rendering
pipeline of the "reader view" browser extension.  The TypeScript source is embedded
shallowly: pure functions become Lean functions, the module-level mutable state of the
reader host becomes an explicit state record, and the JS `Set<string>` values become
`Finset String`.
-/

set_option maxHeartbeats 1000000

namespace RVR

/-- Embedding of the `CommentNode` record from the source: one comment and its reply
subtree.  `score` and `createdUtc` are optional, as in the TS type. -/
inductive CommentNode where
  | mk (id author bodyMarkdown bodyHtml : String)
       (score createdUtc : Option Int)
       (replies : List CommentNode)

def CommentNode.id : CommentNode → String
  | .mk i _ _ _ _ _ _ => i

def CommentNode.author : CommentNode → String
  | .mk _ a _ _ _ _ _ => a

def CommentNode.bodyMarkdown : CommentNode → String
  | .mk _ _ b _ _ _ _ => b

def CommentNode.bodyHtml : CommentNode → String
  | .mk _ _ _ b _ _ _ => b

def CommentNode.score : CommentNode → Option Int
  | .mk _ _ _ _ s _ _ => s

def CommentNode.createdUtc : CommentNode → Option Int
  | .mk _ _ _ _ _ c _ => c

def CommentNode.replies : CommentNode → List CommentNode
  | .mk _ _ _ _ _ _ r => r

/-- `typeof node.score === 'number' ? node.score : 0` -/
def CommentNode.scoreOrZero (c : CommentNode) : Int := c.score.getD 0

@[simp] theorem CommentNode.id_mk (i a bm bh : String) (s cu : Option Int)
    (r : List CommentNode) : (CommentNode.mk i a bm bh s cu r).id = i := rfl

@[simp] theorem CommentNode.replies_mk (i a bm bh : String) (s cu : Option Int)
    (r : List CommentNode) : (CommentNode.mk i a bm bh s cu r).replies = r := rfl

@[simp] theorem CommentNode.score_mk (i a bm bh : String) (s cu : Option Int)
    (r : List CommentNode) : (CommentNode.mk i a bm bh s cu r).score = s := rfl

/-- Result record of `selectVisibleChildren`. -/
structure SelectResult where
  visible : List CommentNode
  hiddenDepthCount : Nat
  hiddenLowScoreCount : Nat

/-- Embedding of `selectVisibleChildren`.  The module-level set
`expandedLowScoreById` is passed explicitly; the loop over `children` is the
source's `for` loop, folded left over an accumulator. -/
def selectVisibleChildren (expandedLowScoreById : Finset String)
    (parent : CommentNode) (children : List CommentNode)
    (depth depthLimit : Nat) (hideLow : Bool)
    (promotedPathIds : Finset String) (unlimitedDepth : Bool) : SelectResult :=
  let showLow : Bool := parent.id ∈ expandedLowScoreById
  children.foldl
    (fun acc child =>
      let score := child.scoreOrZero
      let isLow : Bool := hideLow && decide (score ≤ -3) && !showLow
      let withinDepth : Bool := depth ≤ depthLimit
      let promoted : Bool := child.id ∈ promotedPathIds
      let visibleByDepth : Bool := unlimitedDepth || withinDepth || promoted
      if isLow then
        { acc with hiddenLowScoreCount := acc.hiddenLowScoreCount + 1 }
      else if !visibleByDepth then
        { acc with hiddenDepthCount := acc.hiddenDepthCount + 1 }
      else
        { acc with visible := acc.visible ++ [child] })
    ⟨[], 0, 0⟩

/-- The hidden-by-score predicate, in the spec's words: `hideLow` is set, the child's
score (default 0) is ≤ −3, and the parent has not been marked "show low-score". -/
def hiddenByScore (expandedLowScoreById : Finset String) (parent child : CommentNode)
    (hideLow : Bool) : Prop :=
  hideLow = true ∧ child.scoreOrZero ≤ -3 ∧ parent.id ∉ expandedLowScoreById

instance (es : Finset String) (p c : CommentNode) (hl : Bool) :
    Decidable (hiddenByScore es p c hl) := by
  unfold hiddenByScore; infer_instance

/-- The visible-by-depth predicate, in the spec's words: `unlimitedDepth` is true, or
`depth ≤ depthLimit`, or the child's id is promoted. -/
def visibleByDepth (child : CommentNode) (depth depthLimit : Nat)
    (promotedPathIds : Finset String) (unlimitedDepth : Bool) : Prop :=
  unlimitedDepth = true ∨ depth ≤ depthLimit ∨ child.id ∈ promotedPathIds

instance (c : CommentNode) (d dl : Nat) (p : Finset String) (u : Bool) :
    Decidable (visibleByDepth c d dl p u) := by
  unfold visibleByDepth; infer_instance

theorem selectVisibleChildren_foldl_char (expandedLowScoreById : Finset String)
    (parent : CommentNode) (children : List CommentNode)
    (depth depthLimit : Nat) (hideLow : Bool)
    (promotedPathIds : Finset String) (unlimitedDepth : Bool) (acc : SelectResult) :
    children.foldl
      (fun acc child =>
        let score := child.scoreOrZero
        let isLow : Bool := hideLow && decide (score ≤ -3) &&
          !(decide (parent.id ∈ expandedLowScoreById) : Bool)
        let withinDepth : Bool := depth ≤ depthLimit
        let promoted : Bool := child.id ∈ promotedPathIds
        let visibleByDepth : Bool := unlimitedDepth || withinDepth || promoted
        if isLow then
          { acc with hiddenLowScoreCount := acc.hiddenLowScoreCount + 1 }
        else if !visibleByDepth then
          { acc with hiddenDepthCount := acc.hiddenDepthCount + 1 }
        else
          { acc with visible := acc.visible ++ [child] })
      acc =
    { visible := acc.visible ++ children.filter (fun c =>
        decide (¬ hiddenByScore expandedLowScoreById parent c hideLow ∧
          visibleByDepth c depth depthLimit promotedPathIds unlimitedDepth)),
      hiddenDepthCount := acc.hiddenDepthCount + (children.filter (fun c =>
        decide (¬ hiddenByScore expandedLowScoreById parent c hideLow ∧
          ¬ visibleByDepth c depth depthLimit promotedPathIds unlimitedDepth))).length,
      hiddenLowScoreCount := acc.hiddenLowScoreCount + (children.filter (fun c =>
        decide (hiddenByScore expandedLowScoreById parent c hideLow))).length } := by
  induction children generalizing acc with
  | nil => simp
  | cons c cs ih =>
    simp only [List.foldl_cons, List.filter_cons]
    by_cases hlow : hiddenByScore expandedLowScoreById parent c hideLow
    · have hb : (hideLow && decide (c.scoreOrZero ≤ -3) &&
          !(decide (parent.id ∈ expandedLowScoreById) : Bool)) = true := by
        obtain ⟨h1, h2, h3⟩ := hlow
        simp [h1, h2, h3]
      rw [ih]
      simp only [hb]
      simp [hlow, Nat.add_assoc, Nat.add_comm 1]
    · have hb : (hideLow && decide (c.scoreOrZero ≤ -3) &&
          !(decide (parent.id ∈ expandedLowScoreById) : Bool)) = false := by
        by_cases h2 : c.scoreOrZero ≤ -3
        · by_cases h3 : parent.id ∈ expandedLowScoreById
          · simp [h3]
          · rcases Bool.eq_false_or_eq_true hideLow with h1 | h1
            · exact absurd ⟨h1, h2, h3⟩ hlow
            · simp [h1]
        · simp [h2]
      by_cases hvis : visibleByDepth c depth depthLimit promotedPathIds unlimitedDepth
      · have hbv : (unlimitedDepth || decide (depth ≤ depthLimit) ||
            decide (c.id ∈ promotedPathIds)) = true := by
          rcases hvis with h | h | h
          · simp [h]
          · simp [h]
          · simp [h]
        rw [ih]
        simp [hb, hbv, hlow, hvis]
      · have hbv : (unlimitedDepth || decide (depth ≤ depthLimit) ||
            decide (c.id ∈ promotedPathIds)) = false := by
          simp only [visibleByDepth, not_or] at hvis
          obtain ⟨h1, h2, h3⟩ := hvis
          simp [h1, h2, h3]
        rw [ih]
        simp [hb, hbv, hlow, hvis, Nat.add_assoc, Nat.add_comm 1]

/-- C1: per-child visibility classification of `selectVisibleChildren`: the hidden-by-score
check (hideLow ∧ score ≤ −3 ∧ parent not expanded) takes precedence over depth, such
children only increment `hiddenLowScoreCount`; a child not hidden by score is visible iff
`unlimitedDepth` or `depth ≤ depthLimit` or its id is promoted, and otherwise increments
`hiddenDepthCount` and is excluded. -/
theorem selectVisibleChildren_spec (expandedLowScoreById : Finset String)
    (parent : CommentNode) (children : List CommentNode)
    (depth depthLimit : Nat) (hideLow : Bool)
    (promotedPathIds : Finset String) (unlimitedDepth : Bool) :
    (selectVisibleChildren expandedLowScoreById parent children depth depthLimit hideLow
        promotedPathIds unlimitedDepth).visible =
      children.filter (fun c =>
        decide (¬ hiddenByScore expandedLowScoreById parent c hideLow ∧
          visibleByDepth c depth depthLimit promotedPathIds unlimitedDepth)) ∧
    (selectVisibleChildren expandedLowScoreById parent children depth depthLimit hideLow
        promotedPathIds unlimitedDepth).hiddenLowScoreCount =
      (children.filter (fun c =>
        decide (hiddenByScore expandedLowScoreById parent c hideLow))).length ∧
    (selectVisibleChildren expandedLowScoreById parent children depth depthLimit hideLow
        promotedPathIds unlimitedDepth).hiddenDepthCount =
      (children.filter (fun c =>
        decide (¬ hiddenByScore expandedLowScoreById parent c hideLow ∧
          ¬ visibleByDepth c depth depthLimit promotedPathIds unlimitedDepth))).length ∧
    (∀ c ∈ children,
      (c ∈ (selectVisibleChildren expandedLowScoreById parent children depth depthLimit
          hideLow promotedPathIds unlimitedDepth).visible ↔
        ¬ hiddenByScore expandedLowScoreById parent c hideLow ∧
          visibleByDepth c depth depthLimit promotedPathIds unlimitedDepth)) := by
  have h := selectVisibleChildren_foldl_char expandedLowScoreById parent children depth
    depthLimit hideLow promotedPathIds unlimitedDepth ⟨[], 0, 0⟩
  unfold selectVisibleChildren
  simp only at h
  rw [h]
  refine ⟨by simp, by simp, by simp, ?_⟩
  intro c hc
  simp [List.mem_filter, hc]

/-! ### Promotion heuristic (`computePromotedPathIds`) -/

/-- One record of the `visit` pass: id ↦ (parent id or `none` for the root, score
default 0, depth).  The source stores these in three `Map`s plus an `allIds` array,
all keyed identically; we keep one association list in visit (preorder) order. -/
abbrev VisitEntry := String × Option String × Int × Nat

mutual

/-- Embedding of the `visit` closure of `computePromotedPathIds`: preorder traversal
recording each node's parent, score (default 0) and depth relative to the root.
`visitEntriesChildren` is the `for (const child of node.replies)` loop. -/
def visitEntries : CommentNode → Option String → Nat → List VisitEntry
  | node@(.mk _ _ _ _ _ _ replies), parentId, depth =>
      (node.id, parentId, node.scoreOrZero, depth) ::
        visitEntriesChildren replies node.id depth

def visitEntriesChildren : List CommentNode → String → Nat → List VisitEntry
  | [], _, _ => []
  | c :: cs, parentId, depth =>
      visitEntries c (some parentId) (depth + 1) ++ visitEntriesChildren cs parentId depth

end

/-- JS `Map.get` over the entry list: later `set`s for the same key overwrite
earlier ones, so the lookup replays the list left to right. -/
def mapGet (l : List VisitEntry) (k : String) : Option (Option String × Int × Nat) :=
  l.foldl (fun acc e => if e.1 = k then some e.2 else acc) none

/-- The `while (cur) { promoted.add(cur); cur = parentById.get(cur) ?? null }` walk.
JS stops on `null` and on the empty string (both falsy).  The source loop is
unbounded; `fuel` makes it total, and `computePromotedPathIds` passes fuel equal to
the entry-list length, which never runs out on a tree with distinct ids. -/
def walkUp (f : String → Option (Option String × Int × Nat)) :
    Nat → Option String → List String
  | 0, _ => []
  | _ + 1, none => []
  | fuel + 1, some cur =>
      if cur = "" then []
      else cur :: walkUp f fuel (match f cur with | some v => v.1 | none => none)

/-- All ids recorded by the visit pass (the `allIds` array). -/
def treeIds (root : CommentNode) : List String := (visitEntries root none 0).map (·.1)

/-- The candidate loop: every visited id whose recorded depth exceeds `depthLimit`,
paired with its recorded score (`?? 0` defaults as in the source). -/
def promotionCandidates (root : CommentNode) (depthLimit : Nat) : List (String × Int) :=
  let entries := visitEntries root none 0
  (entries.map (·.1)).filterMap (fun id =>
    let depth := match mapGet entries id with | some v => v.2.2 | none => 0
    if depth ≤ depthLimit then none
    else some (id, match mapGet entries id with | some v => v.2.1 | none => 0))

/-- `maxCandidateScore`: running maximum (starting at 0) over the candidate loop. -/
def maxCandidateScore (root : CommentNode) (depthLimit : Nat) : Int :=
  (promotionCandidates root depthLimit).foldl (fun m c => if m < c.2 then c.2 else m) 0

/-- `threshold = Math.max(5, maxCandidateScore * 0.25)`. -/
def promotionThreshold (root : CommentNode) (depthLimit : Nat) : ℚ :=
  max 5 ((maxCandidateScore root depthLimit : ℚ) * 0.25)

/-- `best = candidates.filter(c => c.score >= threshold).sort((a, b) => b.score - a.score).slice(0, 3)`;
JS `Array.prototype.sort` is stable, hence `mergeSort`. -/
def promotionBest (root : CommentNode) (depthLimit : Nat) : List (String × Int) :=
  (((promotionCandidates root depthLimit).filter
      (fun c => promotionThreshold root depthLimit ≤ (c.2 : ℚ))).mergeSort
    (fun a b => b.2 ≤ a.2)).take 3

/-- Embedding of `computePromotedPathIds`.  The third parameter is declared but never
read, exactly as in the source (`_topScore`). -/
def computePromotedPathIds (root : CommentNode) (depthLimit : Nat) (_topScore : Int) :
    Finset String :=
  let entries := visitEntries root none 0
  if maxCandidateScore root depthLimit < 5 then (∅ : Finset String)
  else
    (promotionBest root depthLimit).foldl
      (fun s c => s ∪ (walkUp (mapGet entries) entries.length (some c.1)).toFinset) ∅

mutual

/-- Structural parent chain, written from the spec's description "walk parent links
back to the root": the ids from the target node up to and including the root, or
`none` when the id does not occur in the tree.  Used as the specification-side
value that the embedded map-walk is proved to compute. -/
def findPathTo : CommentNode → String → Option (List String)
  | node@(.mk _ _ _ _ _ _ replies), target =>
      if node.id = target then some [node.id]
      else (findPathToChildren replies target).map (fun p => p ++ [node.id])

def findPathToChildren : List CommentNode → String → Option (List String)
  | [], _ => none
  | c :: cs, target =>
      match findPathTo c target with
      | some p => some p
      | none => findPathToChildren cs target

end

/-- The parent-chain ids of `target` (target first, root last); `[]` if absent. -/
def ancestorIds (root : CommentNode) (target : String) : List String :=
  (findPathTo root target).getD []

/-- Structural induction principle for the nested inductive `CommentNode`. -/
theorem CommentNode.strongInd {P : CommentNode → Prop}
    (h : ∀ i a bm bh s cu r, (∀ c ∈ r, P c) → P (CommentNode.mk i a bm bh s cu r)) :
    ∀ t, P t
  | .mk i a bm bh s cu r => h i a bm bh s cu r (fun c hc => CommentNode.strongInd h c)
termination_by t => sizeOf t
decreasing_by
  have h' := List.sizeOf_lt_of_mem hc
  simp only [CommentNode.mk.sizeOf_spec]
  omega

theorem visitEntriesChildren_eq (r : List CommentNode) (i : String) (d : Nat) :
    visitEntriesChildren r i d =
      (r.map (fun c => visitEntries c (some i) (d + 1))).flatten := by
  induction r with
  | nil => rfl
  | cons c cs ih => simp [visitEntriesChildren, ih]

theorem visitEntries_mk (i a bm bh : String) (s cu : Option Int) (r : List CommentNode)
    (p : Option String) (d : Nat) :
    visitEntries (.mk i a bm bh s cu r) p d =
      (i, p, s.getD 0, d) :: (r.map (fun c => visitEntries c (some i) (d + 1))).flatten := by
  rw [visitEntries, visitEntriesChildren_eq]
  rfl

theorem findPathToChildren_eq (r : List CommentNode) (target : String) :
    findPathToChildren r target = r.findSome? (fun c => findPathTo c target) := by
  induction r with
  | nil => rfl
  | cons c cs ih =>
    cases h : findPathTo c target <;>
      simp [findPathToChildren, List.findSome?_cons, h, ih]

theorem findPathTo_mk (i a bm bh : String) (s cu : Option Int) (r : List CommentNode)
    (target : String) :
    findPathTo (.mk i a bm bh s cu r) target =
      if i = target then some [i]
      else (r.findSome? (fun c => findPathTo c target)).map (fun p => p ++ [i]) := by
  rw [findPathTo, findPathToChildren_eq]
  rfl

theorem sub_mem_visitEntries {c : CommentNode} {i a bm bh : String} {s cu : Option Int}
    {r : List CommentNode} (hc : c ∈ r) (p : Option String) (d : Nat) :
    ∀ e ∈ visitEntries c (some i) (d + 1), e ∈ visitEntries (.mk i a bm bh s cu r) p d := by
  intro e he
  rw [visitEntries_mk]
  refine List.mem_cons_of_mem _ (List.mem_flatten.2 ⟨visitEntries c (some i) (d + 1), ?_, he⟩)
  exact List.mem_map.2 ⟨c, hc, rfl⟩

theorem head_mem_visitEntries (i a bm bh : String) (s cu : Option Int)
    (r : List CommentNode) (p : Option String) (d : Nat) :
    (i, p, s.getD 0, d) ∈ visitEntries (.mk i a bm bh s cu r) p d := by
  rw [visitEntries_mk]; exact List.mem_cons_self _ _

theorem foldlGet_of_not_mem {k : String} :
    ∀ (l : List VisitEntry) (acc : Option (Option String × Int × Nat)),
      k ∉ l.map (·.1) →
      l.foldl (fun acc e => if e.1 = k then some e.2 else acc) acc = acc := by
  intro l
  induction l with
  | nil => intro acc _; rfl
  | cons e rest ih =>
    intro acc hk
    simp only [List.map_cons, List.mem_cons, not_or] at hk
    simp only [List.foldl_cons]
    rw [if_neg (fun h => hk.1 h.symm), ih _ hk.2]

theorem foldlGet_of_mem {k : String} {v : Option String × Int × Nat} :
    ∀ (l : List VisitEntry) (acc : Option (Option String × Int × Nat)),
      (k, v) ∈ l → (l.map (·.1)).Nodup →
      l.foldl (fun acc e => if e.1 = k then some e.2 else acc) acc = some v := by
  intro l
  induction l with
  | nil => intro _ h; exact absurd h (List.not_mem_nil _)
  | cons e rest ih =>
    intro acc hmem hnd
    simp only [List.map_cons, List.nodup_cons] at hnd
    rcases List.mem_cons.1 hmem with heq | hrest
    · subst heq
      simp only [List.foldl_cons, if_pos rfl]
      exact foldlGet_of_not_mem rest _ hnd.1
    · simp only [List.foldl_cons]
      exact ih _ hrest hnd.2

theorem mapGet_of_mem {l : List VisitEntry} {k : String} {v : Option String × Int × Nat}
    (hmem : (k, v) ∈ l) (hnd : (l.map (·.1)).Nodup) : mapGet l k = some v :=
  foldlGet_of_mem l none hmem hnd

theorem walkUp_none (f : String → Option (Option String × Int × Nat)) :
    ∀ fuel, walkUp f fuel none = [] := by
  intro fuel; cases fuel <;> rfl

theorem walkUp_step {f : String → Option (Option String × Int × Nat)} {cur : String}
    (hcur : cur ≠ "") {v : Option String × Int × Nat} (hf : f cur = some v) (fuel : Nat) :
    walkUp f (fuel + 1) (some cur) = cur :: walkUp f fuel v.1 := by
  rw [walkUp, if_neg hcur, hf]

theorem length_le_length_flatten {α : Type} :
    ∀ (L : List (List α)) (l : List α), l ∈ L → l.length ≤ L.flatten.length := by
  intro L
  induction L with
  | nil => intro l h; exact absurd h (List.not_mem_nil _)
  | cons x xs ih =>
    intro l h
    rcases List.mem_cons.1 h with rfl | h'
    · simp
    · have := ih l h'
      simp only [List.flatten_cons, List.length_append]
      omega

theorem findPathTo_length_le (t : CommentNode) :
    ∀ target path, findPathTo t target = some path →
      ∀ p d, path.length ≤ (visitEntries t p d).length := by
  induction t using CommentNode.strongInd with
  | _ i a bm bh s cu r ih =>
    intro target path hpath p d
    rw [findPathTo_mk] at hpath
    rw [visitEntries_mk]
    by_cases hit : i = target
    · rw [if_pos hit] at hpath
      cases hpath
      simp
    · rw [if_neg hit] at hpath
      obtain ⟨pc, hpc, rfl⟩ := Option.map_eq_some'.1 hpath
      obtain ⟨c, hc, hcpath⟩ := List.exists_of_findSome?_eq_some hpc
      have h1 := ih c hc target pc hcpath (some i) (d + 1)
      have h2 : (visitEntries c (some i) (d + 1)).length ≤
          ((r.map (fun c => visitEntries c (some i) (d + 1))).flatten).length :=
        length_le_length_flatten _ _ (List.mem_map.2 ⟨c, hc, rfl⟩)
      simp only [List.length_append, List.length_cons, List.length_nil]
      omega

theorem findPathTo_of_mem (t : CommentNode) :
    ∀ (p : Option String) (d : Nat) target,
      target ∈ (visitEntries t p d).map (·.1) →
      ∃ path, findPathTo t target = some path := by
  induction t using CommentNode.strongInd with
  | _ i a bm bh s cu r ih =>
    intro p d target hmem
    rw [findPathTo_mk]
    by_cases hit : i = target
    · exact ⟨[i], by rw [if_pos hit]⟩
    · rw [if_neg hit]
      rw [visitEntries_mk] at hmem
      simp only [List.map_cons, List.mem_cons] at hmem
      rcases hmem with heq | hmem
      · exact absurd heq.symm hit
      · rw [List.map_flatten, List.map_map] at hmem
        obtain ⟨sub, hsub, hin⟩ := List.mem_flatten.1 hmem
        obtain ⟨c, hc, rfl⟩ := List.mem_map.1 hsub
        obtain ⟨pc, hpc⟩ := ih c hc (some i) (d + 1) target (by simpa using hin)
        cases hfs : r.findSome? (fun c => findPathTo c target) with
        | none =>
          exact absurd hpc (by simp [List.findSome?_eq_none_iff.1 hfs c hc])
        | some q => exact ⟨q ++ [i], by simp⟩

theorem walkUp_eq_findPath (t : CommentNode) :
    ∀ (p : Option String) (d : Nat) (f : String → Option (Option String × Int × Nat)),
      (∀ e ∈ visitEntries t p d, f e.1 = some e.2) →
      (∀ id ∈ (visitEntries t p d).map (·.1), id ≠ "") →
      ∀ target path, findPathTo t target = some path →
      ∀ fuel, path.length ≤ fuel →
      walkUp f fuel (some target) = path ++ walkUp f (fuel - path.length) p := by
  induction t using CommentNode.strongInd with
  | _ i a bm bh s cu r ih =>
    intro p d f hf hne target path hpath fuel hfuel
    have hhead : f i = some (p, s.getD 0, d) :=
      hf _ (head_mem_visitEntries i a bm bh s cu r p d)
    have hine : i ≠ "" := by
      refine hne i ?_
      rw [visitEntries_mk]; simp
    rw [findPathTo_mk] at hpath
    by_cases hit : i = target
    · rw [if_pos hit] at hpath
      cases hpath
      subst hit
      cases fuel with
      | zero => simp at hfuel
      | succ n =>
        rw [walkUp_step hine hhead]
        simp
    · rw [if_neg hit] at hpath
      obtain ⟨pc, hpc, rfl⟩ := Option.map_eq_some'.1 hpath
      obtain ⟨c, hc, hcpath⟩ := List.exists_of_findSome?_eq_some hpc
      have hf' : ∀ e ∈ visitEntries c (some i) (d + 1), f e.1 = some e.2 :=
        fun e he => hf e (sub_mem_visitEntries hc p d e he)
      have hne' : ∀ id ∈ (visitEntries c (some i) (d + 1)).map (·.1), id ≠ "" := by
        intro id hid
        obtain ⟨e, he, rfl⟩ := List.mem_map.1 hid
        exact hne _ (List.mem_map.2 ⟨e, sub_mem_visitEntries hc p d e he, rfl⟩)
      have hlen : pc.length + 1 ≤ fuel := by
        simpa using hfuel
      have hIH := ih c hc (some i) (d + 1) f hf' hne' target pc hcpath fuel (by omega)
      rw [hIH]
      have hrest : fuel - pc.length = (fuel - pc.length - 1) + 1 := by omega
      rw [hrest, walkUp_step hine hhead]
      have h3 : (pc ++ [i]).length = pc.length + 1 := by simp
      rw [h3]
      have h4 : fuel - (pc.length + 1) = fuel - pc.length - 1 := by omega
      rw [h4]
      simp

theorem walkUp_mapGet_eq_ancestorIds (root : CommentNode)
    (hnodup : (treeIds root).Nodup) (hne : ∀ id ∈ treeIds root, id ≠ "")
    {target : String} (htarget : target ∈ treeIds root) :
    walkUp (mapGet (visitEntries root none 0)) (visitEntries root none 0).length
        (some target) = ancestorIds root target := by
  obtain ⟨path, hpath⟩ := findPathTo_of_mem root none 0 target htarget
  have hlen := findPathTo_length_le root target path hpath none 0
  have hf : ∀ e ∈ visitEntries root none 0, mapGet (visitEntries root none 0) e.1 = some e.2 :=
    fun e he => mapGet_of_mem (by simpa using he) hnodup
  have h := walkUp_eq_findPath root none 0 (mapGet (visitEntries root none 0)) hf hne
    target path hpath (visitEntries root none 0).length hlen
  rw [h, walkUp_none, ancestorIds, hpath]
  simp

theorem computePromotedPathIds_eq (root : CommentNode) (dL : Nat) (t : Int) :
    computePromotedPathIds root dL t =
      if maxCandidateScore root dL < 5 then (∅ : Finset String)
      else (promotionBest root dL).foldl
        (fun s c => s ∪ (walkUp (mapGet (visitEntries root none 0))
          (visitEntries root none 0).length (some c.1)).toFinset) ∅ := rfl

theorem promotionCandidates_char (root : CommentNode) (dL : Nat)
    (hnodup : (treeIds root).Nodup) :
    promotionCandidates root dL = (visitEntries root none 0).filterMap
      (fun e => if e.2.2.2 ≤ dL then none else some (e.1, e.2.2.1)) := by
  have h0 : promotionCandidates root dL =
      ((visitEntries root none 0).map (·.1)).filterMap (fun id =>
        let depth := match mapGet (visitEntries root none 0) id with
          | some v => v.2.2 | none => 0
        if depth ≤ dL then none
        else some (id, match mapGet (visitEntries root none 0) id with
          | some v => v.2.1 | none => 0)) := rfl
  rw [h0, List.filterMap_map]
  refine List.filterMap_congr ?_
  intro e he
  have hget : mapGet (visitEntries root none 0) e.1 = some e.2 :=
    mapGet_of_mem (by simpa using he) hnodup
  simp [Function.comp, hget]

theorem le_foldlMax_init :
    ∀ (l : List (String × Int)) (m : Int),
      m ≤ l.foldl (fun m c => if m < c.2 then c.2 else m) m := by
  intro l
  induction l with
  | nil => intro m; exact le_refl m
  | cons c rest ih =>
    intro m
    refine le_trans ?_ (ih (if m < c.2 then c.2 else m))
    by_cases h : m < c.2
    · rw [if_pos h]; exact le_of_lt h
    · rw [if_neg h]

theorem le_foldlMax_of_mem :
    ∀ (l : List (String × Int)) (m : Int) (c : String × Int), c ∈ l →
      c.2 ≤ l.foldl (fun m c => if m < c.2 then c.2 else m) m := by
  intro l
  induction l with
  | nil => intro _ c h; exact absurd h (List.not_mem_nil _)
  | cons e rest ih =>
    intro m c hc
    rcases List.mem_cons.1 hc with rfl | h'
    · refine le_trans ?_ (le_foldlMax_init rest _)
      show c.2 ≤ if m < c.2 then c.2 else m
      by_cases h : m < c.2
      · rw [if_pos h]
      · rw [if_neg h]; exact le_of_not_lt h
    · exact ih _ c h'

theorem foldlMax_cases :
    ∀ (l : List (String × Int)) (m : Int),
      l.foldl (fun m c => if m < c.2 then c.2 else m) m = m ∨
        ∃ c ∈ l, l.foldl (fun m c => if m < c.2 then c.2 else m) m = c.2 := by
  intro l
  induction l with
  | nil => intro m; exact Or.inl rfl
  | cons e rest ih =>
    intro m
    have hstep : (e :: rest).foldl (fun m c => if m < c.2 then c.2 else m) m =
        rest.foldl (fun m c => if m < c.2 then c.2 else m) (if m < e.2 then e.2 else m) := rfl
    rw [hstep]
    rcases ih (if m < e.2 then e.2 else m) with h | ⟨c, hc, h⟩
    · by_cases hme : m < e.2
      · rw [if_pos hme] at h
        rw [if_pos hme]
        exact Or.inr ⟨e, List.mem_cons_self _ _, h⟩
      · rw [if_neg hme] at h
        rw [if_neg hme]
        exact Or.inl h
    · exact Or.inr ⟨c, List.mem_cons_of_mem _ hc, h⟩

theorem maxCandidateScore_ge5_iff (root : CommentNode) (dL : Nat) :
    5 ≤ maxCandidateScore root dL ↔
      ∃ c ∈ promotionCandidates root dL, 5 ≤ c.2 := by
  constructor
  · intro h5
    rcases foldlMax_cases (promotionCandidates root dL) 0 with h | ⟨c, hc, h⟩
    · rw [maxCandidateScore] at h5; rw [h] at h5; exact absurd h5 (by norm_num)
    · exact ⟨c, hc, by rw [maxCandidateScore] at h5; rw [h] at h5; exact h5⟩
  · rintro ⟨c, hc, h⟩
    exact le_trans h (le_foldlMax_of_mem _ 0 c hc)

theorem mem_foldl_union_init {g : String × Int → Finset String} :
    ∀ (l : List (String × Int)) (acc : Finset String) (x : String), x ∈ acc →
      x ∈ l.foldl (fun s c => s ∪ g c) acc := by
  intro l
  induction l with
  | nil => intro _ _ h; exact h
  | cons e rest ih =>
    intro acc x hx
    exact ih _ x (Finset.mem_union_left _ hx)

theorem mem_foldl_union_of_mem {g : String × Int → Finset String} :
    ∀ (l : List (String × Int)) (acc : Finset String) (c : String × Int), c ∈ l →
      ∀ x ∈ g c, x ∈ l.foldl (fun s c => s ∪ g c) acc := by
  intro l
  induction l with
  | nil => intro _ c h; exact absurd h (List.not_mem_nil _)
  | cons e rest ih =>
    intro acc c hc x hx
    rcases List.mem_cons.1 hc with rfl | h'
    · exact mem_foldl_union_init rest _ x (Finset.mem_union_right _ hx)
    · exact ih _ c h' x hx

theorem foldl_union_congr {g1 g2 : String × Int → Finset String} :
    ∀ (l : List (String × Int)) (acc : Finset String),
      (∀ c ∈ l, g1 c = g2 c) →
      l.foldl (fun s c => s ∪ g1 c) acc = l.foldl (fun s c => s ∪ g2 c) acc := by
  intro l
  induction l with
  | nil => intro _ _; rfl
  | cons e rest ih =>
    intro acc h
    simp only [List.foldl_cons]
    rw [h e (List.mem_cons_self _ _)]
    exact ih _ (fun c hc => h c (List.mem_cons_of_mem _ hc))

theorem candidate_fst_mem_treeIds {root : CommentNode} {dL : Nat}
    (hnodup : (treeIds root).Nodup) :
    ∀ c ∈ promotionCandidates root dL, c.1 ∈ treeIds root := by
  intro c hc
  rw [promotionCandidates_char root dL hnodup] at hc
  obtain ⟨e, he, heq⟩ := List.mem_filterMap.1 hc
  by_cases hd : e.2.2.2 ≤ dL
  · rw [if_pos hd] at heq; exact absurd heq (by simp)
  · rw [if_neg hd] at heq
    cases heq
    exact List.mem_map.2 ⟨e, he, rfl⟩

theorem promotionBest_subset (root : CommentNode) (dL : Nat) :
    ∀ c ∈ promotionBest root dL, c ∈ promotionCandidates root dL := by
  intro c hc
  have h1 := List.mem_of_mem_take hc
  exact (List.mem_filter.1 (List.mem_mergeSort.1 h1)).1

theorem target_mem_findPathTo (t : CommentNode) :
    ∀ target path, findPathTo t target = some path → target ∈ path := by
  induction t using CommentNode.strongInd with
  | _ i a bm bh s cu r ih =>
    intro target path hpath
    rw [findPathTo_mk] at hpath
    by_cases hit : i = target
    · rw [if_pos hit] at hpath
      cases hpath
      simp [hit]
    · rw [if_neg hit] at hpath
      obtain ⟨pc, hpc, rfl⟩ := Option.map_eq_some'.1 hpath
      obtain ⟨c, hc, hcpath⟩ := List.exists_of_findSome?_eq_some hpc
      exact List.mem_append_left _ (ih c hc target pc hcpath)

theorem target_mem_ancestorIds {root : CommentNode} {target : String}
    (h : target ∈ treeIds root) : target ∈ ancestorIds root target := by
  obtain ⟨path, hpath⟩ := findPathTo_of_mem root none 0 target h
  rw [ancestorIds, hpath]
  exact target_mem_findPathTo root target path hpath

theorem promotionBest_nil_of_lt5 {root : CommentNode} {dL : Nat}
    (h : maxCandidateScore root dL < 5) : promotionBest root dL = [] := by
  have hfil : (promotionCandidates root dL).filter
      (fun c => promotionThreshold root dL ≤ (c.2 : ℚ)) = [] := by
    rw [List.filter_eq_nil_iff]
    intro c hc
    have h1 : c.2 ≤ maxCandidateScore root dL := le_foldlMax_of_mem _ 0 c hc
    have h2 : (5 : ℚ) ≤ promotionThreshold root dL := le_max_left _ _
    have h3 : (c.2 : ℚ) < 5 := by
      have : (c.2 : ℚ) ≤ (maxCandidateScore root dL : ℚ) := by exact_mod_cast h1
      have h4 : (maxCandidateScore root dL : ℚ) < 5 := by exact_mod_cast h
      linarith
    simp only [decide_eq_true_eq]
    intro hle
    linarith
  rw [promotionBest, hfil]
  simp

theorem promotionBest_ne_nil_of_ge5 {root : CommentNode} {dL : Nat}
    (h : 5 ≤ maxCandidateScore root dL) : promotionBest root dL ≠ [] := by
  rcases foldlMax_cases (promotionCandidates root dL) 0 with h0 | ⟨c, hc, hmax⟩
  · rw [maxCandidateScore] at h; rw [h0] at h; exact absurd h (by norm_num)
  · have hcval : c.2 = maxCandidateScore root dL := by rw [maxCandidateScore, hmax]
    have hfil : c ∈ (promotionCandidates root dL).filter
        (fun c => promotionThreshold root dL ≤ (c.2 : ℚ)) := by
      rw [List.mem_filter]
      refine ⟨hc, ?_⟩
      simp only [decide_eq_true_eq]
      rw [promotionThreshold, hcval]
      have h0 : (0 : ℚ) ≤ (maxCandidateScore root dL : ℚ) := by
        have : (0 : Int) ≤ maxCandidateScore root dL := by omega
        exact_mod_cast this
      have h5 : (5 : ℚ) ≤ (maxCandidateScore root dL : ℚ) := by exact_mod_cast h
      rw [max_le_iff]
      constructor
      · exact h5
      · linarith
    intro hnil
    rw [promotionBest] at hnil
    have hlen := congrArg List.length hnil
    rw [List.length_take, List.length_mergeSort] at hlen
    simp only [List.length_nil] at hlen
    have hpos : 0 < (List.filter (fun c => decide (promotionThreshold root dL ≤ (c.2 : ℚ)))
        (promotionCandidates root dL)).length :=
      List.length_pos.2 (List.ne_nil_of_mem hfil)
    omega

/-- C2: `computePromotedPathIds` returns ∅ iff no node at depth > `depthLimit` has
score ≥ 5 (missing scores default 0); otherwise it returns exactly the union of the
parent-chain ids (up to and including the root) of the selected candidates — the
candidates with score ≥ `max(5, 0.25 × max candidate score)`, sorted by descending
score, first 3 kept — so at most 3 root-to-leaf selections are promoted.  The
hypotheses are the thread data-model invariant: ids are unique and nonempty. -/
theorem computePromotedPathIds_spec (root : CommentNode) (depthLimit : Nat) (topScore : Int)
    (hnodup : (treeIds root).Nodup) (hne : ∀ id ∈ treeIds root, id ≠ "") :
    (computePromotedPathIds root depthLimit topScore = ∅ ↔
      ∀ e ∈ visitEntries root none 0, depthLimit < e.2.2.2 → e.2.2.1 < 5) ∧
    computePromotedPathIds root depthLimit topScore =
      (promotionBest root depthLimit).foldl
        (fun s c => s ∪ (ancestorIds root c.1).toFinset) ∅ ∧
    (promotionBest root depthLimit).length ≤ 3 := by
  have hib : ∀ c ∈ promotionBest root depthLimit,
      (walkUp (mapGet (visitEntries root none 0)) (visitEntries root none 0).length
        (some c.1)).toFinset = (ancestorIds root c.1).toFinset := by
    intro c hc
    have h1 : c ∈ promotionCandidates root depthLimit := promotionBest_subset _ _ c hc
    have h2 : c.1 ∈ treeIds root := candidate_fst_mem_treeIds hnodup c h1
    rw [walkUp_mapGet_eq_ancestorIds root hnodup hne h2]
  have heq : computePromotedPathIds root depthLimit topScore =
      (promotionBest root depthLimit).foldl
        (fun s c => s ∪ (ancestorIds root c.1).toFinset) ∅ := by
    rw [computePromotedPathIds_eq]
    by_cases h : maxCandidateScore root depthLimit < 5
    · rw [if_pos h, promotionBest_nil_of_lt5 h]
      rfl
    · rw [if_neg h]
      exact foldl_union_congr _ _ hib
  have hmax_iff : 5 ≤ maxCandidateScore root depthLimit ↔
      ∃ e ∈ visitEntries root none 0, depthLimit < e.2.2.2 ∧ 5 ≤ e.2.2.1 := by
    rw [maxCandidateScore_ge5_iff]
    constructor
    · rintro ⟨c, hc, h5⟩
      rw [promotionCandidates_char root depthLimit hnodup] at hc
      obtain ⟨e, he, heq'⟩ := List.mem_filterMap.1 hc
      by_cases hd : e.2.2.2 ≤ depthLimit
      · rw [if_pos hd] at heq'; exact absurd heq' (by simp)
      · rw [if_neg hd] at heq'
        cases heq'
        exact ⟨e, he, by omega, h5⟩
    · rintro ⟨e, he, hd, h5⟩
      refine ⟨(e.1, e.2.2.1), ?_, h5⟩
      rw [promotionCandidates_char root depthLimit hnodup]
      exact List.mem_filterMap.2 ⟨e, he, by rw [if_neg (by omega)]⟩
  have hne_res : 5 ≤ maxCandidateScore root depthLimit →
      computePromotedPathIds root depthLimit topScore ≠ ∅ := by
    intro h5 hempty
    have hbest := promotionBest_ne_nil_of_ge5 h5
    obtain ⟨b, hb⟩ := List.exists_mem_of_ne_nil _ hbest
    have h1 : b ∈ promotionCandidates root depthLimit := promotionBest_subset _ _ b hb
    have h2 : b.1 ∈ treeIds root := candidate_fst_mem_treeIds hnodup b h1
    have h3 : b.1 ∈ ancestorIds root b.1 := target_mem_ancestorIds h2
    have h4 : b.1 ∈ computePromotedPathIds root depthLimit topScore := by
      rw [heq]
      exact mem_foldl_union_of_mem _ _ b hb b.1 (List.mem_toFinset.2 h3)
    rw [hempty] at h4
    exact absurd h4 (Finset.not_mem_empty _)
  refine ⟨⟨?_, ?_⟩, heq, List.length_take_le _ _⟩
  · intro hres e he hd
    by_contra h5
    push_neg at h5
    exact hne_res (hmax_iff.2 ⟨e, he, hd, h5⟩) hres
  · intro hall
    have hlt : maxCandidateScore root depthLimit < 5 := by
      by_contra hge
      push_neg at hge
      obtain ⟨e, he, hd, h5⟩ := hmax_iff.1 hge
      exact absurd (hall e he hd) (by omega)
    rw [computePromotedPathIds_eq, if_pos hlt]

/-- Concrete comment tree used by the witness theorems: a root with one child that
has three grandchildren of scores 10, 6 and 1 (all at depth 2). -/
def sampleTree : CommentNode :=
  ⟨"r", "u1", "", "", some 1, none,
    [⟨"b", "u2", "", "", some 2, none,
      [⟨"c", "u3", "", "", some 10, none, []⟩,
       ⟨"d", "u4", "", "", some 6, none, []⟩,
       ⟨"e", "u5", "", "", some 1, none, []⟩]⟩]⟩

theorem computePromotedPathIds_spec_witness :
    ((treeIds sampleTree).Nodup ∧ (∀ id ∈ treeIds sampleTree, id ≠ "")) ∧
    ((computePromotedPathIds sampleTree 1 0 = ∅ ↔
        ∀ e ∈ visitEntries sampleTree none 0, 1 < e.2.2.2 → e.2.2.1 < 5) ∧
      computePromotedPathIds sampleTree 1 0 =
        (promotionBest sampleTree 1).foldl
          (fun s c => s ∪ (ancestorIds sampleTree c.1).toFinset) ∅ ∧
      (promotionBest sampleTree 1).length ≤ 3) :=
  ⟨⟨by decide, by decide⟩,
    computePromotedPathIds_spec sampleTree 1 0 (by decide) (by decide)⟩

/-- C10: `computePromotedPathIds` never reads its `topScore` argument, so its result
is the same for any two values of it. -/
theorem computePromotedPathIds_topScore_irrelevant :
    ∀ (root : CommentNode) (depthLimit : Nat) (t1 t2 : Int),
      computePromotedPathIds root depthLimit t1 = computePromotedPathIds root depthLimit t2 :=
  fun _ _ _ _ => rfl

/-! ### Comment parser (`parseCommentsListing` / `parseComment`) -/

/-- JSON values, the input domain of the parser (JS objects keep field order;
duplicate keys resolve to the last one, as in `JVal.get`). -/
inductive JVal where
  | jnull
  | jbool (b : Bool)
  | jnum (n : Int)
  | jstr (s : String)
  | jarr (items : List JVal)
  | jobj (fields : List (String × JVal))

/-- JS truthiness. -/
def JVal.truthy : JVal → Bool
  | .jnull => false
  | .jbool b => b
  | .jnum n => n != 0
  | .jstr s => s != ""
  | .jarr _ => true
  | .jobj _ => true

/-- `typeof v === 'object'` (true for `null`, arrays and plain objects). -/
def JVal.isObjType : JVal → Bool
  | .jnull => true
  | .jarr _ => true
  | .jobj _ => true
  | _ => false

/-- Property access `v.k` (`undefined`, i.e. `none`, when absent or not an object;
for duplicate keys the last assignment wins as in a JS object). -/
def JVal.get : JVal → String → Option JVal
  | .jobj fields, k => fields.foldl (fun acc f => if f.1 = k then some f.2 else acc) none
  | _, _ => none

/-- `v === 's'` for an optional value against a string literal. -/
def jIsStr : Option JVal → String → Bool
  | some (.jstr t), s => t = s
  | _, _ => false

mutual

/-- JS `String(v)` for JSON values. -/
def jsToString : JVal → String
  | .jnull => "null"
  | .jbool true => "true"
  | .jbool false => "false"
  | .jnum n => toString n
  | .jstr s => s
  | .jarr items => jsJoin items
  | .jobj _ => "[object Object]"

/-- `Array.prototype.toString`: elements joined by commas, `null` as empty. -/
def jsJoin : List JVal → String
  | [] => ""
  | [.jnull] => ""
  | [v] => jsToString v
  | .jnull :: rest => "," ++ jsJoin rest
  | v :: rest => jsToString v ++ "," ++ jsJoin rest

end

/-- `String(x || '')`. -/
def jsStringOrEmpty : Option JVal → String
  | some x => if x.truthy then jsToString x else ("")
  | none => ("")

/-- `String(x || dflt)` for a string default. -/
def jsStringOrDefault (v : Option JVal) (dflt : String) : String :=
  match v with
  | some x => if x.truthy then jsToString x else dflt
  | none => dflt

/-- Left-to-right, non-overlapping replace-all over character lists; `fuel` is the
input length, enough because each step consumes at least one character. -/
def replaceCharsAux (pat rep : List Char) : Nat → List Char → List Char
  | 0, s => s
  | _, [] => []
  | fuel + 1, c :: rest =>
      if pat.isPrefixOf (c :: rest) then
        rep ++ replaceCharsAux pat rep fuel ((c :: rest).drop pat.length)
      else c :: replaceCharsAux pat rep fuel rest

/-- JS `s.replace(/pat/g, rep)` for a literal pattern. -/
def strReplaceAll (s pat rep : String) : String :=
  if pat.isEmpty then s
  else ⟨replaceCharsAux pat.data rep.data s.data.length s.data⟩

/-- Embedding of `escapeHtml`. -/
def escapeHtml (value : String) : String :=
  strReplaceAll (strReplaceAll (strReplaceAll (strReplaceAll (strReplaceAll value
    ("&") ("&amp;")) ("<") ("&lt;")) (">") ("&gt;")) ("\x22") ("&quot;")) ("\x27") ("&#039;")

/-- Embedding of `cleanRedditHtml` (`(html || '')` is the identity on strings). -/
def cleanRedditHtml (html : String) : String :=
  strReplaceAll (strReplaceAll html ("<!-- SC_OFF -->") ("")) ("<!-- SC_ON -->") ("")

/-- Embedding of `parseComment`: returns `none` exactly when the wrapper carries no
truthy `data` payload; otherwise builds the node, recursing into
`data.replies.data.children` only while `remainingDepth > 0` and only into entries
of kind `t1`. -/
def parseComment : JVal → Nat → Option CommentNode
  | wrapper, remainingDepth =>
    match wrapper.get ("data") with
    | none => none
    | some data =>
      if !data.truthy then none
      else
        let id := jsStringOrEmpty (data.get ("id"))
        let author := jsStringOrDefault (data.get ("author")) ("unknown")
        let bodyMarkdown := jsStringOrEmpty (data.get ("body"))
        let bodyHtml0 := cleanRedditHtml (jsStringOrEmpty (data.get ("body_html")))
        let bodyHtml := if bodyHtml0 = "" && bodyMarkdown != "" then
            "<pre>" ++ escapeHtml bodyMarkdown ++ "</pre>"
          else bodyHtml0
        let replies : List CommentNode :=
          match remainingDepth, data.get ("replies") with
          | rd + 1, some r =>
              if r.truthy && r.isObjType then
                match (r.get ("data")).bind (fun d => d.get ("children")) with
                | some (.jarr children) =>
                    children.filterMap (fun child =>
                      if jIsStr (child.get ("kind")) ("t1") then parseComment child rd
                      else none)
                | _ => []
              else []
          | _, _ => []
        let score : Option Int :=
          match data.get ("score") with
          | some (.jnum n) => some n
          | _ => none
        let createdUtc : Option Int :=
          match data.get ("created_utc") with
          | some (.jnum n) => some n
          | _ => none
        some ⟨id, author, bodyMarkdown, bodyHtml, score, createdUtc, replies⟩
termination_by structural _ n => n

mutual

/-- The `countNodes` helper of `parseCommentsListing`: self plus all descendants. -/
def CommentNode.countNodes : CommentNode → Nat
  | .mk _ _ _ _ _ _ replies => 1 + countNodesList replies

def countNodesList : List CommentNode → Nat
  | [] => 0
  | c :: cs => CommentNode.countNodes c + countNodesList cs

end

/-- Result record of `parseCommentsListing`. -/
structure ParsedListing where
  comments : List CommentNode
  loadedCount : Nat
  hasMore : Bool

/-- One iteration of the `for (const child of children)` loop of
`parseCommentsListing`. -/
def parseListingStep (acc : ParsedListing) (child : JVal) : ParsedListing :=
  if !child.truthy || !child.isObjType then acc
  else if jIsStr (child.get ("kind")) ("more") then { acc with hasMore := true }
  else if !(jIsStr (child.get ("kind")) ("t1")) then acc
  else
    match parseComment child 10 with
    | none => acc
    | some node =>
        { acc with
          loadedCount := acc.loadedCount + node.countNodes,
          comments := acc.comments ++ [node] }

/-- Embedding of `parseCommentsListing`; the argument is `data?.[1]?.data?.children`,
so `none` stands for `undefined` and a non-array input also takes the
`!Array.isArray` early return. -/
def parseCommentsListing (children : Option JVal) : ParsedListing :=
  match children with
  | some (.jarr items) => items.foldl parseListingStep ⟨[], 0, false⟩
  | _ => ⟨[], 0, false⟩

/-- A placeholder ("more"-kind) listing entry. -/
def isPlaceholderEntry (child : JVal) : Bool :=
  child.truthy && child.isObjType && jIsStr (child.get ("kind")) ("more")

/-- A recognized comment (kind `t1`) listing entry. -/
def isCommentEntry (child : JVal) : Bool :=
  child.truthy && child.isObjType && jIsStr (child.get ("kind")) ("t1")

theorem jIsStr_eq_true_iff (v : Option JVal) (s : String) :
    jIsStr v s = true ↔ v = some (.jstr s) := by
  cases v with
  | none => simp [jIsStr]
  | some x => cases x <;> simp [jIsStr]

theorem jIsStr_more_not_t1 {v : Option JVal} (h : jIsStr v ("more") = true) :
    jIsStr v ("t1") = false := by
  rw [jIsStr_eq_true_iff] at h
  rw [h]
  rfl

theorem parseListingStep_not_obj {c : JVal} (acc : ParsedListing)
    (h : (c.truthy && c.isObjType) = false) : parseListingStep acc c = acc := by
  have hb : (!c.truthy || !c.isObjType) = true := by
    rw [← Bool.not_and, h]; rfl
  rw [parseListingStep, if_pos hb]

theorem parseListingStep_more {c : JVal} (acc : ParsedListing)
    (h1 : c.truthy = true) (h2 : c.isObjType = true)
    (h3 : jIsStr (c.get ("kind")) ("more")  = true) :
    parseListingStep acc c = { acc with hasMore := true } := by
  have hb : (!c.truthy || !c.isObjType) = false := by rw [h1, h2]; rfl
  rw [parseListingStep, if_neg (by rw [hb]; exact Bool.false_ne_true), if_pos h3]

theorem parseListingStep_not_t1 {c : JVal} (acc : ParsedListing)
    (h1 : c.truthy = true) (h2 : c.isObjType = true)
    (h3 : jIsStr (c.get ("kind")) ("more") = false)
    (h5 : jIsStr (c.get ("kind")) ("t1") = false) : parseListingStep acc c = acc := by
  have hb : (!c.truthy || !c.isObjType) = false := by rw [h1, h2]; rfl
  rw [parseListingStep, if_neg (by rw [hb]; exact Bool.false_ne_true),
    if_neg (by rw [h3]; exact Bool.false_ne_true), if_pos (by rw [h5]; rfl)]

theorem parseListingStep_t1 {c : JVal} (acc : ParsedListing)
    (h1 : c.truthy = true) (h2 : c.isObjType = true)
    (h3 : jIsStr (c.get ("kind")) ("more") = false)
    (h5 : jIsStr (c.get ("kind")) ("t1") = true) :
    parseListingStep acc c =
      match parseComment c 10 with
      | none => acc
      | some node =>
          { acc with
            loadedCount := acc.loadedCount + node.countNodes,
            comments := acc.comments ++ [node] } := by
  have hb : (!c.truthy || !c.isObjType) = false := by rw [h1, h2]; rfl
  rw [parseListingStep, if_neg (by rw [hb]; exact Bool.false_ne_true),
    if_neg (by rw [h3]; exact Bool.false_ne_true),
    if_neg (by rw [h5]; simp)]

/-- The loop body as a pick function: the node a listing entry contributes, if any. -/
def pickListingEntry (child : JVal) : Option CommentNode :=
  if isCommentEntry child then parseComment child 10 else none

theorem parseCommentsListing_foldl_char :
    ∀ (items : List JVal) (acc : ParsedListing),
      items.foldl parseListingStep acc =
      ⟨acc.comments ++ items.filterMap pickListingEntry,
        acc.loadedCount + ((items.filterMap pickListingEntry).map
            CommentNode.countNodes).sum,
        acc.hasMore || items.any isPlaceholderEntry⟩ := by
  intro items
  induction items with
  | nil => intro acc; simp
  | cons c cs ih =>
    intro acc
    rw [List.foldl_cons]
    by_cases h1 : (c.truthy && c.isObjType) = true
    · have h1ab : c.truthy = true ∧ c.isObjType = true := by
        constructor
        · exact Bool.and_elim_left h1
        · exact Bool.and_elim_right h1
      have h1a : c.truthy = true := h1ab.1
      have h1b : c.isObjType = true := h1ab.2
      by_cases h3 : jIsStr (c.get ("kind")) ("more") = true
      · have h4 := jIsStr_more_not_t1 h3
        have hC : pickListingEntry c = none := by
          rw [pickListingEntry, isCommentEntry, h4, if_neg (by simp)]
        have hP : isPlaceholderEntry c = true := by
          rw [isPlaceholderEntry, h1a, h1b, h3]; rfl
        rw [parseListingStep_more acc h1a h1b h3, ih, List.filterMap_cons, hC,
          List.any_cons, hP]
        simp
      · have h3f : jIsStr (c.get ("kind")) ("more") = false :=
          Bool.eq_false_iff.2 h3
        have hP : isPlaceholderEntry c = false := by
          rw [isPlaceholderEntry, h3f]; simp
        by_cases h5 : jIsStr (c.get ("kind")) ("t1") = true
        · have hC : pickListingEntry c = parseComment c 10 := by
            rw [pickListingEntry, isCommentEntry, h1a, h1b, h5]
            simp
          rw [parseListingStep_t1 acc h1a h1b h3f h5]
          cases hp : parseComment c 10 with
          | none =>
            rw [ih, List.filterMap_cons, hC, hp, List.any_cons, hP]
            simp
          | some node =>
            rw [ih, List.filterMap_cons, hC, hp, List.any_cons, hP]
            simp [Nat.add_assoc]
        · have h5f : jIsStr (c.get ("kind")) ("t1") = false :=
            Bool.eq_false_iff.2 h5
          have hC : pickListingEntry c = none := by
            rw [pickListingEntry, isCommentEntry, h5f, if_neg (by simp)]
          rw [parseListingStep_not_t1 acc h1a h1b h3f h5f, ih, List.filterMap_cons,
            hC, List.any_cons, hP]
          simp
    · have h1f : (c.truthy && c.isObjType) = false := Bool.eq_false_iff.2 h1
      have hC : pickListingEntry c = none := by
        rw [pickListingEntry, isCommentEntry, h1f]
        simp
      have hP : isPlaceholderEntry c = false := by
        rw [isPlaceholderEntry, h1f]
        rfl
      rw [parseListingStep_not_obj acc h1f, ih, List.filterMap_cons, hC,
        List.any_cons, hP]
      simp

/-- C7: for every input list, `parseCommentsListing` (a total function, so it never
raises) sets `hasMore` iff some entry is a placeholder ("more"-kind) entry;
placeholder, malformed and unrecognized entries contribute no comment node (the
comments are exactly the successfully parsed kind-`t1` entries); `loadedCount` is the
total number of materialized nodes (each root plus all descendants); and the
truncated-listing scenario (one placeholder then one comment with no replies) yields
`hasMore = true`, `loadedCount = 1` and exactly one root comment. -/
theorem parseCommentsListing_spec (items : List JVal) :
    ((parseCommentsListing (some (.jarr items))).hasMore = true ↔
      ∃ child ∈ items, isPlaceholderEntry child = true) ∧
    (parseCommentsListing (some (.jarr items))).comments =
      items.filterMap pickListingEntry ∧
    (parseCommentsListing (some (.jarr items))).loadedCount =
      (((parseCommentsListing (some (.jarr items))).comments).map
        CommentNode.countNodes).sum ∧
    parseCommentsListing (some (.jarr [.jobj [("kind", .jstr ("more"))],
        .jobj [("kind", .jstr ("t1")),
          ("data", .jobj [("id", .jstr ("c1")), ("body", .jstr ("hi"))])]])) =
      ⟨[⟨"c1", "unknown", "hi", "<pre>hi</pre>", none, none, []⟩], 1, true⟩ := by
  have h := parseCommentsListing_foldl_char items ⟨[], 0, false⟩
  have hdef : parseCommentsListing (some (.jarr items)) =
      items.foldl parseListingStep ⟨[], 0, false⟩ := rfl
  rw [hdef, h]
  refine ⟨?_, by simp, by simp, rfl⟩
  simp [List.any_eq_true]

/-! ### Render engine: DOM render path vs markdown export path -/

/-- The three module-level per-node UI-state sets of the reader host. -/
structure UiState where
  expandedMoreById : Finset String
  expandedLowScoreById : Finset String
  collapsedById : Finset String

/-- The settings record passed to `renderCommentTree` / `appendVisibleCommentMarkdown`. -/
structure RenderSettings where
  depthLimit : Nat
  autoDepth : Bool
  hideLow : Bool
  promotedPathIds : Finset String

theorem mem_of_mem_selectVisible {es : Finset String} {p : CommentNode}
    {children : List CommentNode} {d dl : Nat} {hl : Bool} {pr : Finset String}
    {u : Bool} {c : CommentNode}
    (h : c ∈ (selectVisibleChildren es p children d dl hl pr u).visible) :
    c ∈ children := by
  rw [(selectVisibleChildren_spec es p children d dl hl pr u).1] at h
  exact (List.mem_filter.1 h).1

theorem CommentNode.sizeOf_replies_lt (t : CommentNode) : sizeOf t.replies < sizeOf t := by
  cases t with
  | mk i a bm bh s cu r =>
    simp only [CommentNode.replies_mk, CommentNode.mk.sizeOf_spec]
    omega

/-- The node ids for which `renderCommentTree` produces a DOM element (each
invocation creates a wrapper carrying `data-commentId`); a collapsed node is still
rendered as a one-line stub but its subtree is not, and an empty reply list returns
before the replies section. -/
def renderVisitedIds (ui : UiState) :
    CommentNode → RenderSettings → Nat → Bool → List String
  | comment, settings, currentDepth, unlimitedDepth =>
    comment.id ::
      (if comment.id ∈ ui.collapsedById then []
       else if comment.replies.length = 0 then []
       else
         let thisSubtreeUnlimited :=
           unlimitedDepth || comment.id ∈ ui.expandedMoreById
         ((selectVisibleChildren ui.expandedLowScoreById comment comment.replies
             (currentDepth + 1) settings.depthLimit settings.hideLow
             settings.promotedPathIds thisSubtreeUnlimited).visible.attach.map
           (fun x => renderVisitedIds ui x.1 settings (currentDepth + 1)
             thisSubtreeUnlimited)).flatten)
termination_by c _ _ _ => sizeOf c
decreasing_by
  have h1 := mem_of_mem_selectVisible x.2
  have h2 := List.sizeOf_lt_of_mem h1
  have h3 := CommentNode.sizeOf_replies_lt comment
  omega

/-- The node ids for which `appendVisibleCommentMarkdown` emits a header line: a
collapsed node returns before emitting anything, and an empty reply list returns
after the body. -/
def mdEmittedIds (ui : UiState) :
    CommentNode → RenderSettings → Nat → Bool → List String
  | comment, settings, depth, unlimitedDepth =>
    if comment.id ∈ ui.collapsedById then []
    else
      comment.id ::
        (if comment.replies.length = 0 then []
         else
           let thisSubtreeUnlimited :=
             unlimitedDepth || comment.id ∈ ui.expandedMoreById
           ((selectVisibleChildren ui.expandedLowScoreById comment comment.replies
               (depth + 1) settings.depthLimit settings.hideLow
               settings.promotedPathIds thisSubtreeUnlimited).visible.attach.map
             (fun x => mdEmittedIds ui x.1 settings (depth + 1)
               thisSubtreeUnlimited)).flatten)
termination_by c _ _ _ => sizeOf c
decreasing_by
  have h1 := mem_of_mem_selectVisible x.2
  have h2 := List.sizeOf_lt_of_mem h1
  have h3 := CommentNode.sizeOf_replies_lt comment
  omega

theorem attach_map_flatten {α : Type} (l : List CommentNode) (f : CommentNode → List α) :
    (l.attach.map (fun x => f x.1)).flatten = (l.map f).flatten := by
  have h := List.attach_map_coe l f
  rw [h]

theorem renderVisitedIds_eq (ui : UiState) (comment : CommentNode)
    (settings : RenderSettings) (currentDepth : Nat) (unlimitedDepth : Bool) :
    renderVisitedIds ui comment settings currentDepth unlimitedDepth =
      comment.id ::
        (if comment.id ∈ ui.collapsedById then []
         else if comment.replies.length = 0 then []
         else
           ((selectVisibleChildren ui.expandedLowScoreById comment comment.replies
               (currentDepth + 1) settings.depthLimit settings.hideLow
               settings.promotedPathIds
               (unlimitedDepth || comment.id ∈ ui.expandedMoreById)).visible.map
             (fun c => renderVisitedIds ui c settings (currentDepth + 1)
               (unlimitedDepth || comment.id ∈ ui.expandedMoreById))).flatten) := by
  rw [renderVisitedIds]
  congr 1
  split_ifs with h1 h2
  · rfl
  · rfl
  · exact attach_map_flatten
      ((selectVisibleChildren ui.expandedLowScoreById comment comment.replies
        (currentDepth + 1) settings.depthLimit settings.hideLow settings.promotedPathIds
        (unlimitedDepth || comment.id ∈ ui.expandedMoreById)).visible)
      (fun c => renderVisitedIds ui c settings (currentDepth + 1)
        (unlimitedDepth || comment.id ∈ ui.expandedMoreById))

theorem mdEmittedIds_eq (ui : UiState) (comment : CommentNode)
    (settings : RenderSettings) (depth : Nat) (unlimitedDepth : Bool) :
    mdEmittedIds ui comment settings depth unlimitedDepth =
      if comment.id ∈ ui.collapsedById then []
      else
        comment.id ::
          (if comment.replies.length = 0 then []
           else
             ((selectVisibleChildren ui.expandedLowScoreById comment comment.replies
                 (depth + 1) settings.depthLimit settings.hideLow
                 settings.promotedPathIds
                 (unlimitedDepth || comment.id ∈ ui.expandedMoreById)).visible.map
               (fun c => mdEmittedIds ui c settings (depth + 1)
                 (unlimitedDepth || comment.id ∈ ui.expandedMoreById))).flatten) := by
  rw [mdEmittedIds]
  split_ifs with h1 h2
  · rfl
  · rfl
  · congr 1
    exact attach_map_flatten
      ((selectVisibleChildren ui.expandedLowScoreById comment comment.replies
        (depth + 1) settings.depthLimit settings.hideLow settings.promotedPathIds
        (unlimitedDepth || comment.id ∈ ui.expandedMoreById)).visible)
      (fun c => mdEmittedIds ui c settings (depth + 1)
        (unlimitedDepth || comment.id ∈ ui.expandedMoreById))

/-- C5 (amended): the markdown export path emits exactly the DOM-rendered ids that
are not in the collapsed set — the two traversals agree node for node except that a
collapsed node is still rendered as a DOM stub but emits no markdown.  In
particular the two id sets coincide whenever no rendered node is collapsed. -/
theorem mdEmittedIds_eq_filter_renderVisited (ui : UiState) (settings : RenderSettings)
    (comment : CommentNode) :
    ∀ (depth : Nat) (unlimited : Bool),
      mdEmittedIds ui comment settings depth unlimited =
        (renderVisitedIds ui comment settings depth unlimited).filter
          (fun i => !(decide (i ∈ ui.collapsedById))) := by
  induction comment using CommentNode.strongInd with
  | _ i a bm bh s cu r ih =>
    intro depth unlimited
    rw [mdEmittedIds_eq, renderVisitedIds_eq]
    simp only [CommentNode.id_mk, CommentNode.replies_mk]
    by_cases hcol : i ∈ ui.collapsedById
    · rw [if_pos hcol, if_pos hcol]
      simp [hcol]
    · rw [if_neg hcol, if_neg hcol]
      by_cases hrep : r.length = 0
      · rw [if_pos hrep, if_pos hrep]
        simp [hcol]
      · rw [if_neg hrep, if_neg hrep]
        rw [List.filter_cons]
        have hp : (!(decide (i ∈ ui.collapsedById))) = true := by simp [hcol]
        rw [hp]
        simp only [if_true, ite_true]
        congr 1
        rw [List.filter_flatten, List.map_map]
        refine congrArg List.flatten (List.map_congr_left ?_)
        intro c hc
        exact ih c (mem_of_mem_selectVisible hc) (depth + 1) _

/-- C5 counterexample: a single collapsed root.  The DOM path renders the collapsed
node (a stub element carrying its id), while the markdown path emits nothing, so the
two id sets differ. -/
theorem renderVisitedIds_ne_mdEmittedIds :
    (renderVisitedIds ⟨∅, ∅, {"a"}⟩ ⟨"a", "u", "", "", none, none, []⟩
        ⟨1, true, true, ∅⟩ 0 false).toFinset ≠
      (mdEmittedIds ⟨∅, ∅, {"a"}⟩ ⟨"a", "u", "", "", none, none, []⟩
        ⟨1, true, true, ∅⟩ 0 false).toFinset := by
  rw [renderVisitedIds_eq, mdEmittedIds_eq]
  simp

theorem selectVisible_mono {es : Finset String} {p : CommentNode}
    {children : List CommentNode} {depth : Nat} {hl : Bool} {pr : Finset String}
    {u : Bool} {d1 d2 : Nat} (hd : d1 ≤ d2) :
    (selectVisibleChildren es p children depth d1 hl pr u).visible ⊆
      (selectVisibleChildren es p children depth d2 hl pr u).visible := by
  intro c hc
  rw [(selectVisibleChildren_spec es p children depth d1 hl pr u).1,
    List.mem_filter] at hc
  rw [(selectVisibleChildren_spec es p children depth d2 hl pr u).1, List.mem_filter]
  refine ⟨hc.1, ?_⟩
  have h2 := hc.2
  simp only [decide_eq_true_eq] at h2 ⊢
  obtain ⟨hns, hvd⟩ := h2
  refine ⟨hns, ?_⟩
  rcases hvd with h | h | h
  · exact Or.inl h
  · exact Or.inr (Or.inl (le_trans h hd))
  · exact Or.inr (Or.inr h)

/-- C8: depth monotonicity.  With the tree, promotion set, per-node UI state and the
other settings held fixed, raising the depth limit from `d1` to `d2 ≥ d1` only
grows the set of ids the render walk visits. -/
theorem renderVisitedIds_depth_mono (ui : UiState) (promoted : Finset String)
    (autoDepth hideLow : Bool) (comment : CommentNode) {d1 d2 : Nat} (hd : d1 ≤ d2) :
    ∀ (depth : Nat) (unlimited : Bool),
      renderVisitedIds ui comment ⟨d1, autoDepth, hideLow, promoted⟩ depth unlimited ⊆
        renderVisitedIds ui comment ⟨d2, autoDepth, hideLow, promoted⟩ depth unlimited := by
  induction comment using CommentNode.strongInd with
  | _ i a bm bh s cu r ih =>
    intro depth unlimited id hid
    rw [renderVisitedIds_eq] at hid ⊢
    simp only [CommentNode.id_mk, CommentNode.replies_mk] at hid ⊢
    rcases List.mem_cons.1 hid with rfl | htail
    · exact List.mem_cons_self _ _
    · refine List.mem_cons_of_mem _ ?_
      by_cases hcol : i ∈ ui.collapsedById
      · rw [if_pos hcol] at htail
        exact absurd htail (List.not_mem_nil _)
      · rw [if_neg hcol] at htail ⊢
        by_cases hrep : r.length = 0
        · rw [if_pos hrep] at htail
          exact absurd htail (List.not_mem_nil _)
        · rw [if_neg hrep] at htail ⊢
          obtain ⟨l, hl, hidl⟩ := List.mem_flatten.1 htail
          obtain ⟨c, hc, rfl⟩ := List.mem_map.1 hl
          have hc2 := selectVisible_mono hd hc
          have hid2 := ih c (mem_of_mem_selectVisible hc) (depth + 1) _ hidl
          exact List.mem_flatten.2 ⟨_, List.mem_map.2 ⟨c, hc2, rfl⟩, hid2⟩

theorem renderVisitedIds_depth_mono_witness :
    (0 : Nat) ≤ 1 ∧
      (renderVisitedIds ⟨∅, ∅, ∅⟩ sampleTree ⟨0, true, true, ∅⟩ 0 false ⊆
        renderVisitedIds ⟨∅, ∅, ∅⟩ sampleTree ⟨1, true, true, ∅⟩ 0 false) :=
  ⟨by decide,
    renderVisitedIds_depth_mono ⟨∅, ∅, ∅⟩ ∅ true true sampleTree (by decide) 0 false⟩

/-! ### Fetch orchestrator (`loadComments`) as an explicit state machine

The reader host's module-level mutable state becomes a record; each continuation of
the async `loadComments` becomes a function of the state.  The model covers the
path where the comments UI elements and a permalink are present (otherwise no fetch
starts at all). -/

/-- The status region: `setCommentsStatus` variants.  `errorRetry` is the error
variant rendered with the explicit user-triggered `Retry` action
(`actions: [{ label: 'Retry', onClick: () => void loadComments() }]`). -/
inductive CommentsStatus where
  | info
  | loading
  | success
  | errorRetry
deriving DecidableEq, Repr

/-- Module-level mutable state of the reader host that `loadComments` touches.
`renderedComments` models which tree the `#comments-list` element currently shows
(`listEl.replaceChildren()` = `[]`, a render pass = the rendered tree). -/
structure HostState where
  commentsLoadSeq : Nat
  currentComments : List CommentNode
  expandedMoreById : Finset String
  expandedLowScoreById : Finset String
  collapsedById : Finset String
  status : CommentsStatus
  renderedComments : List CommentNode
  keepCommentsListDuringNextLoad : Bool

/-- The synchronous prefix of `loadComments` up to the first await: increments and
captures the sequence counter, aborts the previous in-flight request, shows the
loading status, and clears the list unless a "load more" flagged it kept. -/
def startLoadComments (s : HostState) : Nat × HostState :=
  let requestSeq := s.commentsLoadSeq + 1
  (requestSeq,
    { s with
      commentsLoadSeq := requestSeq,
      status := .loading,
      renderedComments :=
        if s.keepCommentsListDuringNextLoad then s.renderedComments else [] })

/-- The `finally` block: `keepCommentsListDuringNextLoad = false` runs on every
resolution; the select re-enabling and abort-controller reset are guarded by the
sequence check and do not touch modelled state. -/
def finallyBlock (s : HostState) : HostState :=
  { s with keepCommentsListDuringNextLoad := false }

/-- The cache-hit continuation: commits the cached tree only when the captured
sequence still equals the current counter, clearing the three per-node UI-state
sets and re-rendering; a stale resolution only runs the `finally` block. -/
def applyCacheHit (s : HostState) (requestSeq : Nat) (cached : List CommentNode) :
    HostState :=
  if requestSeq = s.commentsLoadSeq then
    finallyBlock
      { s with
        currentComments := cached,
        expandedMoreById := ∅,
        expandedLowScoreById := ∅,
        collapsedById := ∅,
        status := .success,
        renderedComments := cached }
  else finallyBlock s

/-- The network-success continuation: parses, re-validates the captured sequence
against the current counter, and only then commits (tree replaced, the three sets
cleared, success status, re-render). -/
def resolveNetworkSuccess (s : HostState) (requestSeq : Nat) (parsed : ParsedListing) :
    HostState :=
  if requestSeq = s.commentsLoadSeq then
    finallyBlock
      { s with
        currentComments := parsed.comments,
        expandedMoreById := ∅,
        expandedLowScoreById := ∅,
        collapsedById := ∅,
        status := .success,
        renderedComments := parsed.comments }
  else finallyBlock s

/-- The catch continuation: an `AbortError` (superseded request) performs no UI
transition; a stale error is ignored; a current transport error sets the retryable
error status, clears the rendered list (`listEl.replaceChildren()`) and the tree
(`currentComments = []`). -/
def resolveNetworkError (s : HostState) (requestSeq : Nat) (isAbort : Bool) :
    HostState :=
  if isAbort then finallyBlock s
  else if requestSeq = s.commentsLoadSeq then
    finallyBlock
      { s with status := .errorRetry, renderedComments := [], currentComments := [] }
  else finallyBlock s

/-- A display-setting change (`depth` / `auto-depth` / `hide-low`): `rerenderComments`
re-walks `currentComments`; it reads but never writes the three UI-state sets. -/
def rerenderFromSettings (s : HostState) : HostState :=
  { s with renderedComments := s.currentComments }

/-- The "load more" footer click: flags the list to be kept during the next load,
advances the limit select, and calls `loadComments`. -/
def loadMoreClick (s : HostState) : Nat × HostState :=
  startLoadComments { s with keepCommentsListDuringNextLoad := true }

/-- C3: sequence guard.  Starting fetch A and then fetch B (which bumps the counter
and aborts A), every continuation re-validates its captured sequence number, so in
either resolution order only B's parse is committed: the visible tree (and the held
tree, and the status) after both resolve equals the one from B alone, and a stale
resolution — whether A's late success or A's abort rejection — leaves the committed
state literally unchanged. -/
theorem sequence_guard_spec (s : HostState) (pA pB : ParsedListing) :
    let ra := (startLoadComments s).1
    let s1 := (startLoadComments s).2
    let rb := (startLoadComments s1).1
    let s2 := (startLoadComments s1).2
    ((resolveNetworkSuccess (resolveNetworkSuccess s2 rb pB) ra pA).currentComments =
        pB.comments ∧
      (resolveNetworkSuccess (resolveNetworkSuccess s2 rb pB) ra pA).renderedComments =
        pB.comments ∧
      (resolveNetworkSuccess (resolveNetworkSuccess s2 rb pB) ra pA).status =
        .success) ∧
    ((resolveNetworkSuccess (resolveNetworkSuccess s2 ra pA) rb pB).currentComments =
        pB.comments ∧
      (resolveNetworkSuccess (resolveNetworkSuccess s2 ra pA) rb pB).renderedComments =
        pB.comments ∧
      (resolveNetworkSuccess (resolveNetworkSuccess s2 ra pA) rb pB).status =
        .success) ∧
    resolveNetworkSuccess (resolveNetworkSuccess s2 rb pB) ra pA =
      resolveNetworkSuccess s2 rb pB ∧
    resolveNetworkError (resolveNetworkSuccess s2 rb pB) ra true =
      resolveNetworkSuccess s2 rb pB := by
  intro ra s1 rb s2
  have hra : ra = s.commentsLoadSeq + 1 := rfl
  have hrb : rb = s.commentsLoadSeq + 2 := rfl
  have hs2 : s2.commentsLoadSeq = s.commentsLoadSeq + 2 := rfl
  have hBfresh : rb = s2.commentsLoadSeq := by rw [hrb, hs2]
  have hAstale : ra ≠ s2.commentsLoadSeq := by rw [hra, hs2]; omega
  have hcommitB : resolveNetworkSuccess s2 rb pB =
      finallyBlock
        { s2 with
          currentComments := pB.comments,
          expandedMoreById := ∅,
          expandedLowScoreById := ∅,
          collapsedById := ∅,
          status := .success,
          renderedComments := pB.comments } := by
    rw [resolveNetworkSuccess, if_pos hBfresh]
  have hseqB : (resolveNetworkSuccess s2 rb pB).commentsLoadSeq = s.commentsLoadSeq + 2 := by
    rw [hcommitB]; exact hs2
  have hstaleA : resolveNetworkSuccess (resolveNetworkSuccess s2 rb pB) ra pA =
      resolveNetworkSuccess s2 rb pB := by
    rw [resolveNetworkSuccess, if_neg (by rw [hseqB, hra]; omega)]
    rw [hcommitB]
    rfl
  have hstaleA2 : resolveNetworkSuccess s2 ra pA = finallyBlock s2 := by
    rw [resolveNetworkSuccess, if_neg hAstale]
  have hcommitB2 : resolveNetworkSuccess (resolveNetworkSuccess s2 ra pA) rb pB =
      finallyBlock
        { finallyBlock s2 with
          currentComments := pB.comments,
          expandedMoreById := ∅,
          expandedLowScoreById := ∅,
          collapsedById := ∅,
          status := .success,
          renderedComments := pB.comments } := by
    rw [hstaleA2, resolveNetworkSuccess, if_pos (by rw [hrb]; rfl)]
  refine ⟨⟨?_, ?_, ?_⟩, ⟨?_, ?_, ?_⟩, hstaleA, ?_⟩
  · rw [hstaleA, hcommitB]; rfl
  · rw [hstaleA, hcommitB]; rfl
  · rw [hstaleA, hcommitB]; rfl
  · rw [hcommitB2]; rfl
  · rw [hcommitB2]; rfl
  · rw [hcommitB2]; rfl
  · rw [resolveNetworkError, if_pos rfl, hcommitB]
    rfl

/-- The state after a successful initial load of one comment, as in the repository's
"keep existing comments when load-more fails" test. -/
def loadedState : HostState :=
  ⟨1, [⟨"c1", "tester", "Hello", "<p>Hello</p>", some 3, none, []⟩], ∅, ∅, ∅,
    .success, [⟨"c1", "tester", "Hello", "<p>Hello</p>", some 3, none, []⟩], false⟩

/-- C4: evaluation of the failing input.  A "load more" click keeps the list during
the load, but when the fetch fails with a transport error the catch block sets the
retryable error status and then unconditionally clears both the rendered list and
the held tree — it does not preserve the previously shown comments, contradicting
the spec and the repository's own test. -/
theorem loadMore_failure_clears_list :
    (loadMoreClick loadedState).2.renderedComments =
      [⟨"c1", "tester", "Hello", "<p>Hello</p>", some 3, none, []⟩] ∧
    (resolveNetworkError (loadMoreClick loadedState).2
      (loadMoreClick loadedState).1 false).status = .errorRetry ∧
    (resolveNetworkError (loadMoreClick loadedState).2
      (loadMoreClick loadedState).1 false).renderedComments = [] ∧
    (resolveNetworkError (loadMoreClick loadedState).2
      (loadMoreClick loadedState).1 false).currentComments = [] :=
  ⟨rfl, rfl, rfl, rfl⟩

/-- C6 counterexample: a cache replay with a current sequence number clears the
per-node UI-state sets, contrary to the claim that a cached response leaves them
alone.  The state holds one collapsed id before the cache hit and none after. -/
theorem cacheHit_clears_ui_sets :
    (HostState.mk 1 [] ∅ ∅ {"x"} .success [] false).collapsedById ≠ ∅ ∧
    (applyCacheHit (HostState.mk 1 [] ∅ ∅ {"x"} .success [] false) 1 []).collapsedById =
      ∅ := by
  constructor
  · decide
  · rfl

/-- C6 (amended): the three per-node UI-state sets are cleared exactly when a
comments load commits its result with a current sequence number — both on a cache
replay and on a fresh network fetch — and are left unchanged by stale resolutions
and by pure re-renders triggered by display-setting changes. -/
theorem ui_sets_reset_policy (s : HostState) (requestSeq : Nat)
    (cached : List CommentNode) (parsed : ParsedListing) :
    ((applyCacheHit s requestSeq cached).expandedMoreById =
        (if requestSeq = s.commentsLoadSeq then ∅ else s.expandedMoreById) ∧
      (applyCacheHit s requestSeq cached).expandedLowScoreById =
        (if requestSeq = s.commentsLoadSeq then ∅ else s.expandedLowScoreById) ∧
      (applyCacheHit s requestSeq cached).collapsedById =
        (if requestSeq = s.commentsLoadSeq then ∅ else s.collapsedById)) ∧
    ((resolveNetworkSuccess s requestSeq parsed).expandedMoreById =
        (if requestSeq = s.commentsLoadSeq then ∅ else s.expandedMoreById) ∧
      (resolveNetworkSuccess s requestSeq parsed).expandedLowScoreById =
        (if requestSeq = s.commentsLoadSeq then ∅ else s.expandedLowScoreById) ∧
      (resolveNetworkSuccess s requestSeq parsed).collapsedById =
        (if requestSeq = s.commentsLoadSeq then ∅ else s.collapsedById)) ∧
    ((rerenderFromSettings s).expandedMoreById = s.expandedMoreById ∧
      (rerenderFromSettings s).expandedLowScoreById = s.expandedLowScoreById ∧
      (rerenderFromSettings s).collapsedById = s.collapsedById) := by
  by_cases h : requestSeq = s.commentsLoadSeq
  · refine ⟨⟨?_, ?_, ?_⟩, ⟨?_, ?_, ?_⟩, rfl, rfl, rfl⟩ <;>
      rw [if_pos h] <;>
      first
        | (rw [applyCacheHit, if_pos h]; rfl)
        | (rw [resolveNetworkSuccess, if_pos h]; rfl)
  · refine ⟨⟨?_, ?_, ?_⟩, ⟨?_, ?_, ?_⟩, rfl, rfl, rfl⟩ <;>
      rw [if_neg h] <;>
      first
        | (rw [applyCacheHit, if_neg h]; rfl)
        | (rw [resolveNetworkSuccess, if_neg h]; rfl)

/-! ### Background comments cache (`setCachedComments` / `getCachedComments`) -/

def COMMENTS_CACHE_TTL_MS : Int := 5 * 60 * 1000

def COMMENTS_CACHE_MAX : Nat := 10

def COMMENTS_CACHE_MAX_BYTES : Nat := 8000000

/-- One `commentsCache` entry: `{ value, expiresAt }`. -/
structure CacheEntry where
  value : JVal
  expiresAt : Int

/-- The `commentsCache` JS `Map`, kept in insertion order (iteration order of a JS
`Map`), with unique keys maintained by `jsMapSet`. -/
abbrev CommentsCache := List (String × CacheEntry)

def jsMapGet (m : CommentsCache) (k : String) : Option CacheEntry :=
  (m.find? (fun e => e.1 = k)).map (·.2)

/-- JS `Map.set`: updates an existing key in place (keeping its position) or
appends a new one at the end. -/
def jsMapSet (m : CommentsCache) (k : String) (v : CacheEntry) : CommentsCache :=
  if m.any (fun e => e.1 = k) then m.map (fun e => if e.1 = k then (k, v) else e)
  else m ++ [(k, v)]

def jsMapDelete (m : CommentsCache) (k : String) : CommentsCache :=
  m.filter (fun e => !(e.1 = k))

/-- Model of `JSON.stringify` escaping for the common escapes (quote, backslash,
newline, tab, carriage return); other characters pass through. -/
def jsonEscapeChar (c : Char) : List Char :=
  if c = '\x22' then ['\\', '\x22']
  else if c = '\\' then ['\\', '\\']
  else if c = '\n' then ['\\', 'n']
  else if c = '\t' then ['\\', 't']
  else if c = '\r' then ['\\', 'r']
  else [c]

def jsonEscape (s : String) : String := ⟨(s.data.map jsonEscapeChar).flatten⟩

mutual

/-- Model of `JSON.stringify` on JSON values (`bytes = JSON.stringify(value).length`
is what the byte ceiling is compared against). -/
def jsonStringify : JVal → String
  | .jnull => "null"
  | .jbool true => "true"
  | .jbool false => "false"
  | .jnum n => toString n
  | .jstr s => "\x22" ++ jsonEscape s ++ "\x22"
  | .jarr items => "[" ++ jsonStringifyItems items ++ "]"
  | .jobj fields => "\x7b" ++ jsonStringifyFields fields ++ "\x7d"

def jsonStringifyItems : List JVal → String
  | [] => ""
  | [v] => jsonStringify v
  | v :: rest => jsonStringify v ++ "," ++ jsonStringifyItems rest

def jsonStringifyFields : List (String × JVal) → String
  | [] => ""
  | [f] => "\x22" ++ jsonEscape f.1 ++ "\x22" ++ ":" ++ jsonStringify f.2
  | f :: rest =>
      "\x22" ++ jsonEscape f.1 ++ "\x22" ++ ":" ++ jsonStringify f.2 ++ "," ++
        jsonStringifyFields rest

end

/-- Result record of `setCachedComments`: `{ ok, reason?, bytes? }`. -/
structure SetResult where
  ok : Bool
  reason : Option String
  bytes : Option Nat
deriving DecidableEq, Repr

/-- The `while (commentsCache.size > COMMENTS_CACHE_MAX)` eviction loop: repeatedly
deletes the oldest (first-inserted) key while over the cap. -/
def evictLoop : CommentsCache → CommentsCache
  | [] => []
  | e :: rest =>
      if (e :: rest).length > COMMENTS_CACHE_MAX then evictLoop rest else e :: rest

/-- Embedding of `getCachedComments`, with `Date.now()` passed explicitly: a missing
key is a miss; an expired entry is deleted and is a miss; a live entry is refreshed
(delete + set moves it to most-recent position) and returned. -/
def getCachedComments (now : Int) (cache : CommentsCache) (key : String) :
    Option JVal × CommentsCache :=
  match jsMapGet cache key with
  | none => (none, cache)
  | some entry =>
      if now > entry.expiresAt then (none, jsMapDelete cache key)
      else (some entry.value, jsMapSet (jsMapDelete cache key) key entry)

/-- Embedding of `setCachedComments`: serialized size over the byte ceiling is
rejected as `too_large` without storing; otherwise the entry is stored with a TTL
expiry and the eviction loop trims to the cap.  (The `not_serializable` catch cannot
fire on `JVal`, which has no cycles.) -/
def setCachedComments (now : Int) (cache : CommentsCache) (key : String) (value : JVal) :
    SetResult × CommentsCache :=
  let bytes := (jsonStringify value).length
  if bytes > COMMENTS_CACHE_MAX_BYTES then (⟨false, some ("too_large"), some bytes⟩, cache)
  else
    (⟨true, none, some bytes⟩,
      evictLoop (jsMapSet cache key ⟨value, now + COMMENTS_CACHE_TTL_MS⟩))

theorem jsMapGet_append_self {m : CommentsCache} {k : String} {v : CacheEntry}
    (h : m.any (fun e => e.1 = k) = false) : jsMapGet (m ++ [(k, v)]) k = some v := by
  induction m with
  | nil => simp [jsMapGet, List.find?]
  | cons e rest ih =>
    simp only [List.any_cons, Bool.or_eq_false_iff] at h
    simp only [List.cons_append, jsMapGet, List.find?_cons, h.1]
    exact ih h.2

theorem jsMapGet_map_self {m : CommentsCache} {k : String} {v : CacheEntry} :
    jsMapGet (m.map (fun e => if e.1 = k then (k, v) else e)) k =
      if m.any (fun e => e.1 = k) then some v else none := by
  induction m with
  | nil => simp [jsMapGet]
  | cons e rest ih =>
    by_cases h : e.1 = k
    · simp only [List.map_cons, if_pos h, jsMapGet, List.find?_cons, List.any_cons, h]
      simp
    · simp only [List.map_cons, if_neg h, jsMapGet, List.find?_cons, List.any_cons]
      have hd : (decide (e.1 = k)) = false := by simp [h]
      simp only [hd, Bool.false_or]
      exact ih

theorem evictLoop_id {m : CommentsCache} (h : m.length ≤ COMMENTS_CACHE_MAX) :
    evictLoop m = m := by
  cases m with
  | nil => rfl
  | cons e rest =>
    rw [evictLoop, if_neg (by omega)]

theorem evictLoop_drop_one {e : String × CacheEntry} {rest : CommentsCache}
    (h : (e :: rest).length = COMMENTS_CACHE_MAX + 1) :
    evictLoop (e :: rest) = rest := by
  rw [evictLoop, if_pos (by omega)]
  exact evictLoop_id (by simp at h; omega)

theorem get_after_set_hit (now : Int) (cache : CommentsCache) (key : String)
    (value : JVal) (hlen : cache.length ≤ COMMENTS_CACHE_MAX)
    (hsmall : (jsonStringify value).length ≤ COMMENTS_CACHE_MAX_BYTES) :
    (getCachedComments now (setCachedComments now cache key value).2 key).1 =
      some value := by
  have hset : (setCachedComments now cache key value).2 =
      evictLoop (jsMapSet cache key ⟨value, now + COMMENTS_CACHE_TTL_MS⟩) := by
    simp only [setCachedComments]
    rw [if_neg (by omega)]
  have hget : jsMapGet (evictLoop (jsMapSet cache key ⟨value, now + COMMENTS_CACHE_TTL_MS⟩))
      key = some ⟨value, now + COMMENTS_CACHE_TTL_MS⟩ := by
    by_cases hany : cache.any (fun e => e.1 = key) = true
    · have h1 : jsMapSet cache key ⟨value, now + COMMENTS_CACHE_TTL_MS⟩ =
          cache.map (fun e => if e.1 = key then (key, ⟨value, now + COMMENTS_CACHE_TTL_MS⟩)
            else e) := by
        rw [jsMapSet, if_pos hany]
      rw [h1, evictLoop_id (by rw [List.length_map]; exact hlen), jsMapGet_map_self,
        if_pos hany]
    · have hanyf : cache.any (fun e => e.1 = key) = false := Bool.eq_false_iff.2 hany
      have h1 : jsMapSet cache key ⟨value, now + COMMENTS_CACHE_TTL_MS⟩ =
          cache ++ [(key, ⟨value, now + COMMENTS_CACHE_TTL_MS⟩)] := by
        rw [jsMapSet, if_neg (by rw [hanyf]; exact Bool.false_ne_true)]
      rw [h1]
      by_cases hfull : cache.length = COMMENTS_CACHE_MAX
      · cases cache with
        | nil => simp [COMMENTS_CACHE_MAX] at hfull
        | cons c0 crest =>
          rw [List.cons_append, evictLoop_drop_one (by simp at hfull ⊢; omega)]
          apply jsMapGet_append_self
          simp only [List.any_cons, Bool.or_eq_false_iff] at hanyf
          exact hanyf.2
      · rw [evictLoop_id (by simp only [List.length_append, List.length_singleton]; omega)]
        exact jsMapGet_append_self hanyf
  rw [hset]
  simp only [getCachedComments, hget]
  have httl : COMMENTS_CACHE_TTL_MS = 300000 := rfl
  rw [if_neg (by omega)]

/-- C9 (amended): from any reachable cache state (at most `COMMENTS_CACHE_MAX`
entries), a SET followed immediately by a GET of the same key hits with that value
unless the value's JSON serialization exceeds the 8,000,000-character ceiling, in
which case SET reports `{ok: false, reason: 'too_large'}` and stores nothing (the
cache is unchanged) — but the subsequent GET only reports a miss if the key was not
already cached; an entry stored earlier under the same key remains and is still
returned. -/
theorem cache_set_get_roundtrip (now : Int) (cache : CommentsCache) (key : String)
    (value : JVal) (hlen : cache.length ≤ COMMENTS_CACHE_MAX) :
    ((jsonStringify value).length ≤ COMMENTS_CACHE_MAX_BYTES →
      (setCachedComments now cache key value).1 =
        ⟨true, none, some (jsonStringify value).length⟩ ∧
      (getCachedComments now (setCachedComments now cache key value).2 key).1 =
        some value) ∧
    (COMMENTS_CACHE_MAX_BYTES < (jsonStringify value).length →
      (setCachedComments now cache key value).1 =
        ⟨false, some ("too_large"), some (jsonStringify value).length⟩ ∧
      (setCachedComments now cache key value).2 = cache ∧
      (jsMapGet cache key = none →
        (getCachedComments now (setCachedComments now cache key value).2 key).1 =
          none)) := by
  constructor
  · intro hsmall
    constructor
    · simp only [setCachedComments]
      rw [if_neg (by omega)]
    · exact get_after_set_hit now cache key value hlen hsmall
  · intro hbig
    have hset : setCachedComments now cache key value =
        (⟨false, some ("too_large"), some (jsonStringify value).length⟩, cache) := by
      simp only [setCachedComments]
      rw [if_pos (by omega)]
    refine ⟨by rw [hset], by rw [hset], ?_⟩
    intro hmiss
    rw [hset]
    simp only [getCachedComments, hmiss]

theorem cache_set_get_roundtrip_witness :
    ([] : CommentsCache).length ≤ COMMENTS_CACHE_MAX ∧
    (((jsonStringify .jnull).length ≤ COMMENTS_CACHE_MAX_BYTES →
      (setCachedComments 0 [] ("k") .jnull).1 =
        ⟨true, none, some (jsonStringify .jnull).length⟩ ∧
      (getCachedComments 0 (setCachedComments 0 [] ("k") .jnull).2 ("k")).1 =
        some .jnull) ∧
    (COMMENTS_CACHE_MAX_BYTES < (jsonStringify .jnull).length →
      (setCachedComments 0 [] ("k") .jnull).1 =
        ⟨false, some ("too_large"), some (jsonStringify .jnull).length⟩ ∧
      (setCachedComments 0 [] ("k") .jnull).2 = [] ∧
      (jsMapGet [] ("k") = none →
        (getCachedComments 0 (setCachedComments 0 [] ("k") .jnull).2 ("k")).1 =
          none))) :=
  ⟨by decide, cache_set_get_roundtrip 0 [] ("k") .jnull (by decide)⟩

/-- An oversized value: a string of 8,000,001 characters, whose JSON serialization
is strictly longer than the byte ceiling. -/
def bigStr : JVal := .jstr ⟨List.replicate 8000001 'a'⟩

theorem bigStr_len : COMMENTS_CACHE_MAX_BYTES < (jsonStringify bigStr).length := by
  have h1 : jsonStringify bigStr =
      "\x22" ++ jsonEscape ⟨List.replicate 8000001 'a'⟩ ++ "\x22" := rfl
  have h2 : jsonEscape ⟨List.replicate 8000001 'a'⟩ =
      ⟨((List.replicate 8000001 'a').map jsonEscapeChar).flatten⟩ := rfl
  have h3 : (List.replicate 8000001 'a').map jsonEscapeChar =
      List.replicate 8000001 ['a'] := by
    rw [List.map_replicate, show jsonEscapeChar 'a' = ['a'] from rfl]
  have h4 : (jsonEscape ⟨List.replicate 8000001 'a'⟩).length = 8000001 := by
    rw [h2]
    show ((List.replicate 8000001 'a').map jsonEscapeChar).flatten.length = 8000001
    rw [h3, List.length_flatten, List.map_replicate, List.sum_replicate]
    simp
  rw [h1, String.length_append, String.length_append, h4,
    show ("\x22" : String).length = 1 from rfl]
  norm_num [COMMENTS_CACHE_MAX_BYTES]

/-- A cache already holding the key `k` (stored by an earlier SET, expiring at
timestamp 300000). -/
def staleCache : CommentsCache := [("k", ⟨.jnum 1, 300000⟩)]

/-- C9 counterexample: with `k` already cached, a `too_large` SET for `k` stores
nothing — and the immediately following GET therefore still HITS with the earlier
value instead of reporting the miss the claim asserts. -/
theorem cache_too_large_get_still_hits :
    (setCachedComments 0 staleCache ("k") bigStr).1.ok = false ∧
    (setCachedComments 0 staleCache ("k") bigStr).1.reason = some ("too_large") ∧
    (getCachedComments 0 (setCachedComments 0 staleCache ("k") bigStr).2 ("k")).1 =
      some (.jnum 1) := by
  have hset : setCachedComments 0 staleCache ("k") bigStr =
      (⟨false, some ("too_large"), some (jsonStringify bigStr).length⟩, staleCache) := by
    simp only [setCachedComments]
    rw [if_pos (by have := bigStr_len; omega)]
  refine ⟨by rw [hset], by rw [hset], ?_⟩
  rw [hset]
  rfl

end RVR
